import Mathlib

/-!
Shallow embedding of the TagItJS core (src/utils.ts and src/tagIt.ts).

JS strings are modelled as `List Char`, numeric scores as `ℚ`, and the
fallible / side-effecting parts (a throwing middleware, an early-returning
insertion) as `Option`-valued functions.
-/

namespace TagIt

/-- `List Char` view of a string literal. -/
def str (s : String) : List Char := s.toList

/-- JS `String.prototype.startsWith` restricted to char lists:
`startsWith p s` is true when `p` is an initial segment of `s`. -/
def startsWith : List Char → List Char → Bool
  | [], _ => true
  | _ :: _, [] => false
  | p :: ps, a :: as => p == a && startsWith ps as

/-- Worker for `jsIndexOf`: scan `s` left to right, `i` is the index of the
current head in the original string. -/
def jsIndexOfAux (pat : List Char) : List Char → Nat → Option Nat
  | [], i => if startsWith pat [] then some i else none
  | a :: rest, i =>
      if startsWith pat (a :: rest) then some i else jsIndexOfAux pat rest (i + 1)

/-- JS `s.indexOf(pat)`: first index at which `pat` occurs in `s`,
`none` in place of JS's `-1`. -/
def jsIndexOf (s pat : List Char) : Option Nat := jsIndexOfAux pat s 0

/-- JS `s.lastIndexOf(c, pos)` for a one-character needle: the largest index
`≤ pos` at which `c` occurs, `none` in place of JS's `-1`. -/
def jsLastIndexOf (s : List Char) (c : Char) : Nat → Option Nat
  | 0 => if s.get? 0 = some c then some 0 else none
  | pos + 1 =>
      if s.get? (pos + 1) = some c then some (pos + 1) else jsLastIndexOf s c pos

/-- JS `s.substring(a, b)`: both ends clamped to the length, swapped when
out of order, then the half-open slice is taken. -/
def jsSubstring (s : List Char) (a b : Nat) : List Char :=
  let a' := min a s.length
  let b' := min b s.length
  (s.take (max a' b')).drop (min a' b')

/-- JS `s.substring(a)` (one-argument form). -/
def jsSubstringFrom (s : List Char) (a : Nat) : List Char :=
  jsSubstring s a s.length

/-- The non-breaking-space character U+00A0. -/
def nbspChar : Char := Char.ofNat 160

/-- JS `text.replace(/ /g, " ")`. -/
def normalizeNbsp (s : List Char) : List Char :=
  s.map (fun ch => if ch = nbspChar then ' ' else ch)

/-- JS `s.split(sep)` for a one-character separator: every occurrence splits,
empty fields are kept, and the result is always non-empty. -/
def jsSplitOn (sep : Char) : List Char → List (List Char)
  | [] => [[]]
  | a :: rest =>
      if a = sep then [] :: jsSplitOn sep rest
      else
        match jsSplitOn sep rest with
        | [] => [[a]]
        | t :: ts => (a :: t) :: ts

/-- `pat` occurs somewhere inside `s` (the claim's notion of substring). -/
def substringOf (pat s : List Char) : Prop :=
  ∃ k, startsWith pat (s.drop k) = true

/-- A suggestion entry: display text, matchable key, and the score slot that
the scoring pass fills in (src/utils.ts `SuggestionItem`). -/
structure SuggestionItem where
  display : List Char
  key : List Char
  matchScore : Option ℚ
deriving DecidableEq

/-- Reading `matchScore!` where the code has just attached it. -/
def scoreOf (s : SuggestionItem) : ℚ := s.matchScore.getD 0

/-- src/utils.ts `getMatchScore`. -/
def getMatchScore (suggestionKey query : List Char) : ℚ :=
  let key := suggestionKey.map Char.toLower
  let q := query.map Char.toLower
  if q.isEmpty then 0
  else if key = q then 1
  else
    match jsIndexOf key q with
    | none => 0
    | some index =>
        let score : ℚ := 1 - (index : ℚ) / (key.length : ℚ)
        max 0 (min 1 score)

/-- The in-place `suggestion.matchScore = getMatchScore(...)` assignment of
src/utils.ts `sortAndFilterSuggestions`, as a pure update. -/
def attachScore (query : List Char) (s : SuggestionItem) : SuggestionItem :=
  { s with matchScore := some (getMatchScore s.key query) }

/-- Insert `x` into a list kept in descending score order. -/
def insertByScore (x : SuggestionItem) : List SuggestionItem → List SuggestionItem
  | [] => [x]
  | y :: ys => if scoreOf y ≤ scoreOf x then x :: y :: ys else y :: insertByScore x ys

/-- The `filtered.sort((a, b) => b.matchScore! - a.matchScore!)` call:
a comparison sort by descending `matchScore` (tie order unspecified in JS). -/
def sortByScoreDesc : List SuggestionItem → List SuggestionItem
  | [] => []
  | x :: xs => insertByScore x (sortByScoreDesc xs)

/-- src/utils.ts `sortAndFilterSuggestions`. -/
def sortAndFilterSuggestions (suggestions : List SuggestionItem)
    (query : List Char) (minScore : ℚ) : List SuggestionItem :=
  if query.isEmpty then suggestions
  else
    let scored := suggestions.map (attachScore query)
    let filtered := scored.filter (fun s => decide (minScore ≤ scoreOf s))
    sortByScoreDesc filtered

/-- A suggestion middleware; `none` models a middleware call that throws
(src/tagIt.ts `SuggestionMiddleware` applied under `try/catch`). -/
def SuggestionMiddleware : Type :=
  List SuggestionItem → Option (List SuggestionItem)

/-- The middleware loop of src/tagIt.ts `showDropdown`: each middleware is run
in registration order; when one throws, the assignment to the working list is
skipped and the loop continues with the previous value. -/
def runMiddlewares : List SuggestionMiddleware → List SuggestionItem → List SuggestionItem
  | [], s => s
  | m :: ms, s => runMiddlewares ms ((m s).getD s)

/-- The user-visible outcome of `showDropdown`: list rendered, or hidden. -/
inductive DropdownState where
  | hidden : DropdownState
  | shown : List SuggestionItem → DropdownState
deriving DecidableEq

/-- src/tagIt.ts `showDropdown`, reduced to its suggestion pipeline and
visibility decision: clone the candidate set, run the middlewares, lower-case
the trigger query, score/filter/sort, truncate to `maxSuggestions`; an empty
result hides the dropdown instead of rendering. -/
def showDropdown (suggestions : List SuggestionItem)
    (middlewares : List SuggestionMiddleware) (query : List Char)
    (minScore : ℚ) (maxSuggestions : Nat) : DropdownState :=
  let afterMw := runMiddlewares middlewares suggestions
  let q := query.map Char.toLower
  let ranked := sortAndFilterSuggestions afterMw q minScore
  let toShow := ranked.take maxSuggestions
  if toShow.isEmpty then DropdownState.hidden else DropdownState.shown toShow

/-- src/tagIt.ts `removeSuggestion`: drop every candidate whose key equals
the given key. -/
def removeSuggestion (suggestions : List SuggestionItem) (key : List Char) :
    List SuggestionItem :=
  suggestions.filter (fun item => decide (item.key ≠ key))

/-- src/tagIt.ts `getTextBeforeCaretForInput`:
`value.substring(0, selectionStart)`. -/
def getTextBeforeCaretForInput (value : List Char) (selStart : Nat) : List Char :=
  jsSubstring value 0 selStart

/-- src/tagIt.ts `getQueryForInput`: the text between the last occurrence of
the trigger character at-or-before `selectionStart` and the caret; empty when
the trigger is absent. -/
def getQueryForInput (value : List Char) (selStart : Nat) (triggerChar : Char) :
    List Char :=
  match jsLastIndexOf value triggerChar selStart with
  | none => []
  | some triggerIndex => jsSubstring value (triggerIndex + 1) selStart

/-- src/tagIt.ts `getQueryForEditable`: same extraction on the text node
containing the caret; `none` models a caret container that is not a text
node, in which case the function falls through to the empty string. -/
def getQueryForEditable (node : Option (List Char)) (startOffset : Nat)
    (triggerChar : Char) : List Char :=
  match node with
  | none => []
  | some textContent =>
      match jsLastIndexOf textContent triggerChar startOffset with
      | none => []
      | some triggerIndex => jsSubstring textContent (triggerIndex + 1) startOffset

/-- src/tagIt.ts `isTriggerActive` for the input/textarea target: normalize
non-breaking spaces in the text before the caret, split on spaces, and require
the final token to start with the trigger character while the extracted query
holds no space. -/
def isTriggerActive (value : List Char) (selStart : Nat) (triggerChar : Char) :
    Bool :=
  let textBeforeCaret := normalizeNbsp (getTextBeforeCaretForInput value selStart)
  let parts := jsSplitOn ' ' textBeforeCaret
  let lastPart := parts.getLastD []
  startsWith [triggerChar] lastPart &&
    (jsIndexOf (getQueryForInput value selStart triggerChar) [' ']).isNone

/-- src/tagIt.ts `insertTagForTextarea`: splice the chosen tag over the span
from the last trigger occurrence at-or-before `selectionStart` to
`selectionEnd` and report the new caret position; `none` models the early
return (value untouched) when the trigger is absent. -/
def insertTagForTextarea (value : List Char) (selStart selEnd : Nat)
    (tag : List Char) (triggerChar : Char) (keepTrigger : Bool) :
    Option (List Char × Nat) :=
  match jsLastIndexOf value triggerChar selStart with
  | none => none
  | some triggerIndex =>
      let beforeTrigger := jsSubstring value 0 triggerIndex
      let afterCaret := jsSubstringFrom value selEnd
      let triggerPart := if keepTrigger then [triggerChar] else []
      let newValue := beforeTrigger ++ triggerPart ++ tag ++ [' '] ++ afterCaret
      let newPos := beforeTrigger.length + triggerPart.length + tag.length + 1
      some (newValue, newPos)

/-- A middleware that always throws. -/
def mwThrow : SuggestionMiddleware := fun _ => none

/-- A middleware that reverses the candidate list. -/
def mwReverse : SuggestionMiddleware := fun l => some l.reverse

/-- `i` is the last occurrence of `c` at-or-before position `pos` in `s`. -/
def IsLastOccurrence (s : List Char) (c : Char) (pos i : Nat) : Prop :=
  i ≤ pos ∧ s.get? i = some c ∧ ∀ j, j ≤ pos → i < j → s.get? j ≠ some c

instance (s : List Char) (c : Char) (pos i : Nat) :
    Decidable (IsLastOccurrence s c pos i) := by
  unfold IsLastOccurrence; infer_instance

/-! ### Helper lemmas about the string primitives -/

theorem startsWith_self (s : List Char) : startsWith s s = true := by
  induction s with
  | nil => rfl
  | cons a as ih => simp [startsWith, ih]

theorem startsWith_length_le {p s : List Char} (h : startsWith p s = true) :
    p.length ≤ s.length := by
  induction p generalizing s with
  | nil => simp
  | cons a ps ih =>
    cases s with
    | nil => simp [startsWith] at h
    | cons b bs =>
      simp only [startsWith, Bool.and_eq_true] at h
      simpa [List.length_cons] using Nat.succ_le_succ (ih h.2)

theorem startsWith_single_iff (c : Char) (s : List Char) :
    startsWith [c] s = true ↔ s.head? = some c := by
  cases s with
  | nil => simp [startsWith]
  | cons b bs =>
    simp only [startsWith, List.head?_cons, Option.some.injEq]
    constructor
    · intro h
      have := (Bool.and_eq_true _ _).mp h
      exact (beq_iff_eq.mp this.1).symm
    · intro h
      simp [h.symm]

theorem jsIndexOfAux_eq_none_iff (pat s : List Char) (i : Nat) :
    jsIndexOfAux pat s i = none ↔ ∀ k, startsWith pat (s.drop k) = false := by
  induction s generalizing i with
  | nil =>
    simp only [jsIndexOfAux]
    constructor
    · intro h k
      by_cases hp : startsWith pat [] = true
      · simp [hp] at h
      · simpa [List.drop_nil] using Bool.eq_false_iff.mpr hp
    · intro h
      have := h 0
      simp only [List.drop_nil] at this
      simp [this]
  | cons a rest ih =>
    simp only [jsIndexOfAux]
    by_cases hp : startsWith pat (a :: rest) = true
    · simp only [hp, if_true]
      constructor
      · intro h; exact absurd h (by simp)
      · intro h
        have := h 0
        simp only [List.drop_zero] at this
        rw [hp] at this; exact absurd this (by simp)
    · rw [if_neg hp, ih]
      constructor
      · intro h k
        cases k with
        | zero => simpa [List.drop_zero] using Bool.eq_false_iff.mpr hp
        | succ k => simpa [List.drop_succ_cons] using h k
      · intro h k
        simpa [List.drop_succ_cons] using h (k + 1)

theorem jsIndexOf_eq_none_iff (s pat : List Char) :
    jsIndexOf s pat = none ↔ ¬ substringOf pat s := by
  rw [jsIndexOf, jsIndexOfAux_eq_none_iff, substringOf]
  push_neg
  constructor
  · intro h k hk
    exact absurd hk (by simp [h k])
  · intro h k
    exact Bool.eq_false_iff.mpr (h k)

theorem jsIndexOfAux_some (pat s : List Char) (i j : Nat)
    (h : jsIndexOfAux pat s i = some j) :
    i ≤ j ∧ startsWith pat (s.drop (j - i)) = true := by
  induction s generalizing i with
  | nil =>
    simp only [jsIndexOfAux] at h
    by_cases hp : startsWith pat [] = true
    · simp only [hp, if_true, Option.some.injEq] at h
      subst h
      simpa [List.drop_nil] using hp
    · simp [hp] at h
  | cons a rest ih =>
    simp only [jsIndexOfAux] at h
    by_cases hp : startsWith pat (a :: rest) = true
    · simp only [hp, if_true, Option.some.injEq] at h
      subst h
      simpa using hp
    · simp only [hp, if_false] at h
      obtain ⟨hle, hsw⟩ := ih (i + 1) h
      refine ⟨by omega, ?_⟩
      have hj : j - i = (j - (i + 1)) + 1 := by omega
      rw [hj, List.drop_succ_cons]
      exact hsw

theorem jsIndexOf_some_startsWith (s pat : List Char) (j : Nat)
    (h : jsIndexOf s pat = some j) : startsWith pat (s.drop j) = true := by
  have := jsIndexOfAux_some pat s 0 j h
  simpa using this.2

theorem jsIndexOf_some_lt_length (s pat : List Char) (j : Nat)
    (hpat : pat ≠ []) (h : jsIndexOf s pat = some j) : j < s.length := by
  have hsw := jsIndexOf_some_startsWith s pat j h
  by_contra hge
  push_neg at hge
  rw [List.drop_eq_nil_iff.mpr hge] at hsw
  cases pat with
  | nil => exact hpat rfl
  | cons a ps => simp [startsWith] at hsw

theorem jsIndexOf_single_none_iff (s : List Char) (c : Char) :
    jsIndexOf s [c] = none ↔ c ∉ s := by
  rw [jsIndexOf, jsIndexOfAux_eq_none_iff]
  constructor
  · intro h hc
    obtain ⟨n, hn⟩ := List.mem_iff_get?.mp hc
    have hd : (s.drop n).head? = some c := by
      rw [List.head?_drop, ← List.get?_eq_getElem?]
      exact hn
    have := (startsWith_single_iff c (s.drop n)).mpr hd
    rw [h n] at this
    exact absurd this (by simp)
  · intro h k
    by_contra hk
    have hk' : startsWith [c] (s.drop k) = true := by
      cases hb : startsWith [c] (s.drop k) with
      | false => exact absurd hb hk
      | true => rfl
    have hd := (startsWith_single_iff c (s.drop k)).mp hk'
    rw [List.head?_drop, ← List.get?_eq_getElem?] at hd
    exact h (List.mem_iff_get?.mpr ⟨k, hd⟩)

theorem jsLastIndexOf_some_iff (s : List Char) (c : Char) (pos i : Nat) :
    jsLastIndexOf s c pos = some i ↔ IsLastOccurrence s c pos i := by
  unfold IsLastOccurrence
  induction pos with
  | zero =>
    simp only [jsLastIndexOf]
    by_cases h0 : s.get? 0 = some c
    · rw [if_pos h0]
      constructor
      · intro h
        obtain rfl : i = 0 := by simpa using h.symm
        exact ⟨Nat.le_refl 0, h0, fun j hj hij => by omega⟩
      · intro ⟨hle, _, _⟩
        obtain rfl : i = 0 := Nat.le_zero.mp hle
        rfl
    · rw [if_neg h0]
      constructor
      · intro h; exact absurd h (by simp)
      · intro ⟨hle, hget, _⟩
        obtain rfl : i = 0 := Nat.le_zero.mp hle
        exact absurd hget h0
  | succ pos ih =>
    simp only [jsLastIndexOf]
    by_cases hp : s.get? (pos + 1) = some c
    · rw [if_pos hp]
      constructor
      · intro h
        obtain rfl : i = pos + 1 := by simpa using h.symm
        exact ⟨Nat.le_refl _, hp, fun j hj hij => by omega⟩
      · intro ⟨hle, hget, hlast⟩
        rcases Nat.lt_or_ge i (pos + 1) with hlt | hge
        · exact absurd hp (hlast (pos + 1) (Nat.le_refl _) hlt)
        · obtain rfl : i = pos + 1 := Nat.le_antisymm hle hge
          rfl
    · rw [if_neg hp, ih]
      constructor
      · intro ⟨hle, hget, hlast⟩
        refine ⟨Nat.le_succ_of_le hle, hget, fun j hj hij => ?_⟩
        rcases Nat.lt_or_ge j (pos + 1) with hlt | hge
        · exact hlast j (by omega) hij
        · obtain rfl : j = pos + 1 := by omega
          exact hp
      · intro ⟨hle, hget, hlast⟩
        have hne : i ≠ pos + 1 := by
          intro heq; subst heq; exact hp hget
        refine ⟨by omega, hget, fun j hj hij => hlast j (by omega) hij⟩

theorem jsLastIndexOf_none_iff (s : List Char) (c : Char) (pos : Nat) :
    jsLastIndexOf s c pos = none ↔ ∀ j, j ≤ pos → s.get? j ≠ some c := by
  induction pos with
  | zero =>
    simp only [jsLastIndexOf]
    by_cases h0 : s.get? 0 = some c
    · rw [if_pos h0]
      constructor
      · intro h; exact absurd h (by simp)
      · intro h; exact absurd h0 (h 0 (Nat.le_refl 0))
    · rw [if_neg h0]
      constructor
      · intro _ j hj
        obtain rfl : j = 0 := Nat.le_zero.mp hj
        exact h0
      · intro _; rfl
  | succ pos ih =>
    simp only [jsLastIndexOf]
    by_cases hp : s.get? (pos + 1) = some c
    · rw [if_pos hp]
      constructor
      · intro h; exact absurd h (by simp)
      · intro h; exact absurd hp (h (pos + 1) (Nat.le_refl _))
    · rw [if_neg hp, ih]
      constructor
      · intro h j hj
        rcases Nat.lt_or_ge j (pos + 1) with hlt | hge
        · exact h j (by omega)
        · obtain rfl : j = pos + 1 := by omega
          exact hp
      · intro h j hj
        exact h j (by omega)

theorem get?_some_lt_length {s : List Char} {i : Nat} {c : Char}
    (h : s.get? i = some c) : i < s.length := by
  obtain ⟨hlt, _⟩ := List.get?_eq_some.mp h
  exact hlt

/-! ### Helper lemmas about `jsSubstring` -/

theorem jsSubstring_zero_left (s : List Char) (i : Nat) (h : i ≤ s.length) :
    jsSubstring s 0 i = s.take i := by
  unfold jsSubstring
  simp [Nat.min_eq_left h, Nat.max_eq_right (Nat.zero_le i)]

theorem jsSubstringFrom_eq_drop (s : List Char) (a : Nat) :
    jsSubstringFrom s a = s.drop a := by
  unfold jsSubstringFrom jsSubstring
  rcases Nat.le_total a s.length with h | h
  · simp [Nat.min_eq_left h, Nat.min_self, Nat.max_eq_right h, List.take_length,
      Nat.min_eq_left (Nat.le_refl s.length)]
  · have h1 : min a s.length = s.length := Nat.min_eq_right h
    simp [h1, List.take_length, List.drop_eq_nil_iff.mpr h,
      List.drop_eq_nil_iff.mpr (Nat.le_refl s.length)]

theorem jsSubstring_of_le (s : List Char) (a b : Nat) (hab : a ≤ b) :
    jsSubstring s a b = (s.take b).drop a := by
  unfold jsSubstring
  dsimp only
  rcases Nat.le_total a s.length with ha | ha
  · have h1 : min a s.length = a := Nat.min_eq_left ha
    have h2 : a ≤ min b s.length := Nat.le_min.mpr ⟨hab, ha⟩
    rw [h1, Nat.max_eq_right h2, Nat.min_eq_left h2]
    rcases Nat.le_total b s.length with hb | hb
    · rw [Nat.min_eq_left hb]
    · rw [Nat.min_eq_right hb, List.take_length, List.take_of_length_le hb]
  · have hba : s.length ≤ b := Nat.le_trans ha hab
    rw [Nat.min_eq_right ha, Nat.min_eq_right hba, Nat.max_self, Nat.min_self,
      List.take_length, List.take_of_length_le hba,
      List.drop_eq_nil_iff.mpr (Nat.le_refl s.length),
      List.drop_eq_nil_iff.mpr ha]

/-! ### Helper lemmas about the descending sort -/

theorem insertByScore_perm (x : SuggestionItem) (l : List SuggestionItem) :
    List.Perm (insertByScore x l) (x :: l) := by
  induction l with
  | nil => exact List.Perm.refl _
  | cons y ys ih =>
    unfold insertByScore
    by_cases h : scoreOf y ≤ scoreOf x
    · rw [if_pos h]
    · rw [if_neg h]
      exact List.Perm.trans (ih.cons y) (List.Perm.swap x y ys)

theorem sortByScoreDesc_perm (l : List SuggestionItem) :
    List.Perm (sortByScoreDesc l) l := by
  induction l with
  | nil => exact List.Perm.refl _
  | cons x xs ih =>
    exact List.Perm.trans (insertByScore_perm x (sortByScoreDesc xs)) (ih.cons x)

theorem insertByScore_pairwise (x : SuggestionItem) (l : List SuggestionItem)
    (h : List.Pairwise (fun a b => scoreOf b ≤ scoreOf a) l) :
    List.Pairwise (fun a b => scoreOf b ≤ scoreOf a) (insertByScore x l) := by
  induction l with
  | nil => simp [insertByScore]
  | cons y ys ih =>
    rcases List.pairwise_cons.mp h with ⟨hy, hys⟩
    unfold insertByScore
    by_cases hxy : scoreOf y ≤ scoreOf x
    · rw [if_pos hxy]
      refine List.Pairwise.cons ?_ h
      intro z hz
      rcases List.mem_cons.mp hz with rfl | hz'
      · exact hxy
      · exact le_trans (hy z hz') hxy
    · rw [if_neg hxy]
      refine List.Pairwise.cons ?_ (ih hys)
      intro z hz
      rcases List.mem_cons.mp ((insertByScore_perm x ys).mem_iff.mp hz) with rfl | hz'
      · exact le_of_lt (lt_of_not_le hxy)
      · exact hy z hz'

theorem sortByScoreDesc_pairwise (l : List SuggestionItem) :
    List.Pairwise (fun a b => scoreOf b ≤ scoreOf a) (sortByScoreDesc l) := by
  induction l with
  | nil => simp [sortByScoreDesc]
  | cons x xs ih => exact insertByScore_pairwise x (sortByScoreDesc xs) ih

theorem jsSubstring_zero (s : List Char) (a : Nat) :
    jsSubstring s 0 a = s.take a := by
  unfold jsSubstring
  dsimp only
  rcases Nat.le_total a s.length with h | h
  · simp [Nat.min_eq_left h, Nat.max_eq_right (Nat.zero_le _)]
  · simp [Nat.min_eq_right h, Nat.max_eq_right (Nat.zero_le _), List.take_length,
      List.take_of_length_le h]

theorem insertTag_eq (value : List Char) (selStart selEnd : Nat)
    (tag : List Char) (c : Char) (keep : Bool) (i : Nat)
    (h : jsLastIndexOf value c selStart = some i) :
    insertTagForTextarea value selStart selEnd tag c keep =
      some (value.take i ++ (if keep then [c] else []) ++ tag ++ [' '] ++ value.drop selEnd,
            i + (if keep then 1 else 0) + tag.length + 1) := by
  have hi : i < value.length :=
    get?_some_lt_length ((jsLastIndexOf_some_iff value c selStart i).mp h).2.1
  unfold insertTagForTextarea
  rw [h]
  cases keep <;>
    simp [jsSubstring_zero, jsSubstringFrom_eq_drop, List.length_take,
      Nat.min_eq_left (Nat.le_of_lt hi)]

/-! ### Claim theorems -/

/-- C1: `getMatchScore(key, query)` returns 0 when the query is empty; 1 when
key and query are equal ignoring case; 0 when the lower-cased query does not
occur as a substring of the lower-cased key; and otherwise
`1 − firstIndexOf(query in key) / length(key)` clamped into `[0, 1]`.
In particular the result always lies in `[0, 1]`. -/
theorem getMatchScore_case_analysis :
    (∀ key query : List Char, query = [] → getMatchScore key query = 0) ∧
    (∀ key query : List Char, query ≠ [] →
      key.map Char.toLower = query.map Char.toLower → getMatchScore key query = 1) ∧
    (∀ key query : List Char,
      ¬ substringOf (query.map Char.toLower) (key.map Char.toLower) →
      getMatchScore key query = 0) ∧
    (∀ (key query : List Char) (i : Nat), query ≠ [] →
      key.map Char.toLower ≠ query.map Char.toLower →
      jsIndexOf (key.map Char.toLower) (query.map Char.toLower) = some i →
      getMatchScore key query = max 0 (min 1 (1 - (i : ℚ) / (key.length : ℚ)))) ∧
    (∀ key query : List Char,
      0 ≤ getMatchScore key query ∧ getMatchScore key query ≤ 1) := by
  refine ⟨?_, ?_, ?_, ?_, ?_⟩
  · intro key query hq
    subst hq
    simp [getMatchScore]
  · intro key query hq hkq
    have hq' : query.map Char.toLower ≠ [] := by
      simpa [List.map_eq_nil_iff] using hq
    unfold getMatchScore
    dsimp only
    rw [if_neg (by simpa [List.isEmpty_iff] using hq'), if_pos hkq]
  · intro key query hsub
    have hq : query.map Char.toLower ≠ [] := by
      intro hnil
      exact hsub ⟨0, by simp [hnil, startsWith]⟩
    have hkq : key.map Char.toLower ≠ query.map Char.toLower := by
      intro heq
      exact hsub ⟨0, by simpa [heq] using startsWith_self (query.map Char.toLower)⟩
    unfold getMatchScore
    dsimp only
    rw [if_neg (by simpa [List.isEmpty_iff] using hq), if_neg hkq,
      (jsIndexOf_eq_none_iff _ _).mpr hsub]
  · intro key query i hq hkq hidx
    have hq' : query.map Char.toLower ≠ [] := by
      simpa [List.map_eq_nil_iff] using hq
    unfold getMatchScore
    dsimp only
    rw [if_neg (by simpa [List.isEmpty_iff] using hq'), if_neg hkq, hidx]
    simp [List.length_map]
  · intro key query
    unfold getMatchScore
    dsimp only
    by_cases h1 : (query.map Char.toLower).isEmpty = true
    · rw [if_pos h1]; norm_num
    · rw [if_neg h1]
      by_cases h2 : key.map Char.toLower = query.map Char.toLower
      · rw [if_pos h2]; norm_num
      · rw [if_neg h2]
        cases hidx : jsIndexOf (key.map Char.toLower) (query.map Char.toLower) with
        | none => norm_num
        | some i =>
          constructor
          · exact le_max_left 0 _
          · exact max_le (by norm_num) (min_le_left 1 _)

/-- C1 witness: `getMatchScore("hal", "al")` falls in the fourth case with
first index 1 and key length 3. -/
theorem getMatchScore_case_analysis_witness :
    getMatchScore (str "hal") (str "al") = 2 / 3 := by
  have h := getMatchScore_case_analysis.2.2.2.1 (str "hal") (str "al") 1
    (by decide) (by decide) (by decide)
  rw [h, show (str "hal").length = 3 from rfl]
  norm_num [min_def, max_def]

/-- C5 counterexample: at key `"a"` and the empty query the score is 0 even
though the empty lower-cased query is a substring of the lower-cased key, so
the claimed equivalence fails there. -/
theorem matchScore_zero_iff_counterexample :
    ¬ (getMatchScore (str "a") [] = 0 ↔
        ¬ substringOf (([] : List Char).map Char.toLower)
          ((str "a").map Char.toLower)) := by
  intro h
  have h0 : getMatchScore (str "a") [] = 0 := by decide
  exact h.mp h0 ⟨0, rfl⟩

/-- C5 (amended): for every key and every NON-EMPTY query,
`getMatchScore(key, query)` equals 0 if and only if the lower-cased query is
not a substring of the lower-cased key. -/
theorem matchScore_zero_iff_not_substring (key query : List Char)
    (hq : query ≠ []) :
    (getMatchScore key query = 0 ↔
      ¬ substringOf (query.map Char.toLower) (key.map Char.toLower)) := by
  have hq' : query.map Char.toLower ≠ [] := by
    simpa [List.map_eq_nil_iff] using hq
  unfold getMatchScore
  dsimp only
  rw [if_neg (by simpa [List.isEmpty_iff] using hq')]
  by_cases hkq : key.map Char.toLower = query.map Char.toLower
  · rw [if_pos hkq]
    refine iff_of_false one_ne_zero ?_
    intro hsub
    exact hsub ⟨0, by simpa [hkq] using startsWith_self (query.map Char.toLower)⟩
  · rw [if_neg hkq]
    cases hidx : jsIndexOf (key.map Char.toLower) (query.map Char.toLower) with
    | none => exact iff_of_true rfl ((jsIndexOf_eq_none_iff _ _).mp hidx)
    | some i =>
      refine iff_of_false ?_ ?_
      · have hi : i < (key.map Char.toLower).length :=
          jsIndexOf_some_lt_length _ _ i hq' hidx
        have hlen : (0 : ℚ) < ((key.map Char.toLower).length : ℚ) := by
          exact_mod_cast Nat.lt_of_le_of_lt (Nat.zero_le i) hi
        have hdiv : ((i : ℚ) / ((key.map Char.toLower).length : ℚ)) < 1 := by
          rw [div_lt_one hlen]
          exact_mod_cast hi
        have hpos : (0 : ℚ) < 1 - (i : ℚ) / ((key.map Char.toLower).length : ℚ) := by
          linarith
        have hmin : (0 : ℚ) < min 1 (1 - (i : ℚ) / ((key.map Char.toLower).length : ℚ)) :=
          lt_min one_pos hpos
        have : (0 : ℚ) < max 0 (min 1 (1 - (i : ℚ) / ((key.map Char.toLower).length : ℚ))) :=
          lt_max_of_lt_right hmin
        exact ne_of_gt this
      · intro hsub
        exact hsub ⟨i, jsIndexOf_some_startsWith _ _ i hidx⟩

/-- C5 witness: key `"a"`, query `"z"`: the score is 0 and indeed the query
is not a substring of the key. -/
theorem matchScore_zero_iff_not_substring_witness :
    ¬ substringOf ((str "z").map Char.toLower) ((str "a").map Char.toLower) :=
  (matchScore_zero_iff_not_substring (str "a") (str "z") (by decide)).mp
    (by decide)

/-- C2: for every non-empty query and every threshold `t`,
`sortAndFilterSuggestions(candidates, query, t)` returns only candidates whose
attached match score is `≥ t`, sorted in descending order of score (tie order
unspecified), with the score `getMatchScore(candidate.key, query)` attached to
every candidate of the input. -/
theorem sortAndFilterSuggestions_ranked (s : List SuggestionItem)
    (q : List Char) (t : ℚ) (hq : q ≠ []) :
    (∀ x ∈ sortAndFilterSuggestions s q t,
        x.matchScore = some (getMatchScore x.key q) ∧ t ≤ scoreOf x) ∧
    List.Pairwise (fun a b => scoreOf b ≤ scoreOf a)
      (sortAndFilterSuggestions s q t) ∧
    List.Perm (sortAndFilterSuggestions s q t)
      ((s.map (attachScore q)).filter (fun x => decide (t ≤ scoreOf x))) ∧
    (∀ x ∈ s.map (attachScore q),
        x.matchScore = some (getMatchScore x.key q)) := by
  have hne : ¬ q.isEmpty = true := by simpa [List.isEmpty_iff] using hq
  have hunfold : sortAndFilterSuggestions s q t =
      sortByScoreDesc ((s.map (attachScore q)).filter
        (fun x => decide (t ≤ scoreOf x))) := by
    unfold sortAndFilterSuggestions
    rw [if_neg hne]
  have hattached : ∀ x ∈ s.map (attachScore q),
      x.matchScore = some (getMatchScore x.key q) := by
    intro x hx
    obtain ⟨y, _, rfl⟩ := List.mem_map.mp hx
    simp [attachScore]
  refine ⟨?_, ?_, ?_, hattached⟩
  · intro x hx
    rw [hunfold] at hx
    have hx' := (sortByScoreDesc_perm _).mem_iff.mp hx
    obtain ⟨hmem, hscore⟩ := List.mem_filter.mp hx'
    exact ⟨hattached x hmem, of_decide_eq_true hscore⟩
  · rw [hunfold]
    exact sortByScoreDesc_pairwise _
  · rw [hunfold]
    exact sortByScoreDesc_perm _

/-- C2 witness: Scenario A — candidates Alice and Albert with query `"al"`
and threshold 0; the pipeline output is pairwise descending in score. -/
theorem sortAndFilterSuggestions_ranked_witness :
    List.Pairwise (fun a b => scoreOf b ≤ scoreOf a)
      (sortAndFilterSuggestions
        [⟨str "Alice", str "Alice", none⟩, ⟨str "Albert", str "Albert", none⟩]
        (str "al") 0) :=
  (sortAndFilterSuggestions_ranked
    [⟨str "Alice", str "Alice", none⟩, ⟨str "Albert", str "Albert", none⟩]
    (str "al") 0 (by decide)).2.1

/-- C3: when the trigger occurs at-or-before the caret (last occurrence at
index `i`), inserting tag `X` into a flat buffer produces
`value[0, i) ++ (triggerChar if keepTrigger) ++ X ++ " " ++ value[selEnd, len)`
and places the caret at offset `i + |triggerPart| + |X| + 1`, i.e. right after
the trailing space. -/
theorem insertTagForTextarea_splice (value : List Char) (selStart selEnd : Nat)
    (tag : List Char) (c : Char) (keep : Bool) (i : Nat)
    (h : jsLastIndexOf value c selStart = some i) :
    insertTagForTextarea value selStart selEnd tag c keep =
      some (value.take i ++ (if keep then [c] else []) ++ tag ++ [' '] ++
              value.drop selEnd,
            i + (if keep then 1 else 0) + tag.length + 1) :=
  insertTag_eq value selStart selEnd tag c keep i h

/-- C3 witness: Scenario B — buffer `"hello @al"`, caret at offset 9,
`keepTrigger = false`, tag `"Alice"` yields `"hello Alice "` with the caret at
offset 12, immediately after the trailing space. -/
theorem insertTagForTextarea_splice_witness :
    insertTagForTextarea (str "hello @al") 9 9 (str "Alice") '@' false =
      some (str "hello Alice ", 12) := by
  rw [insertTagForTextarea_splice (str "hello @al") 9 9 (str "Alice") '@'
    false 6 (by decide)]
  decide

/-- C4: `isTriggerActive` (flat-buffer variant) is true exactly when, after
replacing every non-breaking space with an ordinary space and splitting the
text before the caret on spaces, the final token starts with the trigger
character and the extracted query contains no space; and for the buffer
`"@foo bar"` with the caret after `"bar"` the trigger is inactive. -/
theorem isTriggerActive_iff :
    (∀ (value : List Char) (selStart : Nat) (c : Char),
      isTriggerActive value selStart c = true ↔
        (startsWith [c]
            ((jsSplitOn ' ' (normalizeNbsp (value.take selStart))).getLastD [])
              = true ∧
          ' ' ∉ getQueryForInput value selStart c)) ∧
    isTriggerActive (str "@foo bar") 8 '@' = false := by
  constructor
  · intro value selStart c
    unfold isTriggerActive getTextBeforeCaretForInput
    rw [jsSubstring_zero]
    dsimp only
    rw [Bool.and_eq_true, Option.isNone_iff_eq_none, jsIndexOf_single_none_iff]
  · decide

/-- C6: with an empty query, `sortAndFilterSuggestions` returns the input
list itself — same elements, same order, no filtering, no sorting, and no
`matchScore` attached or modified. -/
theorem sortAndFilterSuggestions_empty_query (s : List SuggestionItem)
    (t : ℚ) : sortAndFilterSuggestions s [] t = s := rfl

/-- C7: in the render pipeline a middleware that throws behaves as the
identity for that stage only: the working list keeps the value passed into
the failing middleware, and every later-registered middleware still runs on
that value, in registration order. -/
theorem middleware_throw_isolated (pre post : List SuggestionMiddleware)
    (m : SuggestionMiddleware) (s : List SuggestionItem)
    (h : m (runMiddlewares pre s) = none) :
    runMiddlewares (pre ++ m :: post) s =
      runMiddlewares post (runMiddlewares pre s) := by
  induction pre generalizing s with
  | nil =>
    simp only [runMiddlewares] at h ⊢
    rw [h, Option.getD_none]
  | cons m0 pre ih =>
    simp only [runMiddlewares] at h ⊢
    exact ih ((m0 s).getD s) h

/-- C7 witness: a throwing first middleware leaves the list for the
reversing middleware that follows it. -/
theorem middleware_throw_isolated_witness :
    runMiddlewares [mwThrow, mwReverse]
        [⟨str "A", str "A", none⟩, ⟨str "B", str "B", none⟩] =
      runMiddlewares [mwReverse]
        [⟨str "A", str "A", none⟩, ⟨str "B", str "B", none⟩] :=
  middleware_throw_isolated [] [mwReverse] mwThrow
    [⟨str "A", str "A", none⟩, ⟨str "B", str "B", none⟩] rfl

/-- C8: whenever the suggestion pipeline (middlewares, then score/filter on
the lower-cased query, then truncation to `maxSuggestions`) produces an empty
list, `showDropdown` hides the dropdown instead of rendering an empty list. -/
theorem showDropdown_hides_on_empty (sugg : List SuggestionItem)
    (mws : List SuggestionMiddleware) (q : List Char) (t : ℚ) (maxN : Nat)
    (h : (sortAndFilterSuggestions (runMiddlewares mws sugg)
        (q.map Char.toLower) t).take maxN = []) :
    showDropdown sugg mws q t maxN = DropdownState.hidden := by
  unfold showDropdown
  dsimp only
  rw [h]
  rfl

/-- C8 witness: Scenario D — after `removeSuggestion("Bob")` empties the
candidate set, rendering with query `"x"` hides the surface. -/
theorem showDropdown_hides_on_empty_witness :
    showDropdown (removeSuggestion [⟨str "Bob", str "Bob", none⟩] (str "Bob"))
        [] (str "x") 0 5 = DropdownState.hidden :=
  showDropdown_hides_on_empty
    (removeSuggestion [⟨str "Bob", str "Bob", none⟩] (str "Bob"))
    [] (str "x") 0 5 (by decide)

/-- C9: when the trigger character does not occur at-or-before the caret,
query extraction returns the empty query in both text-model variants (and in
the editable variant also when the caret container is not a text node), and
tag insertion is a no-op returning the text unchanged; all operations are
total, so nothing is thrown to the caller. -/
theorem trigger_missing_noop (value : List Char) (selStart selEnd : Nat)
    (tag : List Char) (c : Char) (keep : Bool)
    (h : jsLastIndexOf value c selStart = none) :
    getQueryForInput value selStart c = [] ∧
    getQueryForEditable (some value) selStart c = [] ∧
    getQueryForEditable none selStart c = [] ∧
    insertTagForTextarea value selStart selEnd tag c keep = none := by
  refine ⟨?_, ?_, rfl, ?_⟩ <;>
    simp [getQueryForInput, getQueryForEditable, insertTagForTextarea, h]

/-- C9 witness: buffer `"hello"` holds no `@`, so both query extractions are
empty and insertion is a no-op. -/
theorem trigger_missing_noop_witness :
    getQueryForInput (str "hello") 5 '@' = [] ∧
    getQueryForEditable (some (str "hello")) 5 '@' = [] ∧
    getQueryForEditable none 5 '@' = [] ∧
    insertTagForTextarea (str "hello") 5 5 (str "X") '@' false = none :=
  trigger_missing_noop (str "hello") 5 5 (str "X") '@' false (by decide)

/-- C10: query extraction and splicing anchor on the LAST occurrence of the
trigger character at-or-before the caret: when `i` is that occurrence and
lies before the caret, the query is exactly the text strictly between `i` and
the caret, and insertion replaces only the span from `i` to `selEnd`, leaving
the earlier text (including any earlier trigger) in place. -/
theorem last_trigger_anchor (value : List Char) (selStart selEnd : Nat)
    (tag : List Char) (c : Char) (keep : Bool) (i : Nat)
    (hlast : IsLastOccurrence value c selStart i) (hlt : i < selStart) :
    getQueryForInput value selStart c = (value.take selStart).drop (i + 1) ∧
    insertTagForTextarea value selStart selEnd tag c keep =
      some (value.take i ++ (if keep then [c] else []) ++ tag ++ [' '] ++
              value.drop selEnd,
            i + (if keep then 1 else 0) + tag.length + 1) := by
  have hidx : jsLastIndexOf value c selStart = some i :=
    (jsLastIndexOf_some_iff value c selStart i).mpr hlast
  constructor
  · unfold getQueryForInput
    rw [hidx]
    exact jsSubstring_of_le value (i + 1) selStart (by omega)
  · exact insertTag_eq value selStart selEnd tag c keep i hidx

/-- C10 witness: buffer `"@a@b"` with the caret at the end: the last trigger
is at index 2, the query is `"b"`, and inserting `"X"` yields `"@aX "`,
leaving the first trigger and the text between the triggers in place. -/
theorem last_trigger_anchor_witness :
    getQueryForInput (str "@a@b") 4 '@' = str "b" ∧
    insertTagForTextarea (str "@a@b") 4 4 (str "X") '@' false =
      some (str "@aX ", 4) := by
  have h := last_trigger_anchor (str "@a@b") 4 4 (str "X") '@' false 2
    (by decide) (by decide)
  exact ⟨by rw [h.1]; decide, by rw [h.2]; decide⟩

end TagIt
